import Mathlib

/-!
Verification development for the `terminal-search` repository (src/main.rs).

The program is modelled shallowly: strings are `List Char`, the relevant
subset of the Rust `regex` crate (compilation, leftmost-first matching,
`replace_all` with replacement-string expansion, `regex::escape`) is given
as executable Lean functions, and the catalog / store operations of
`Configuration` are translated function by function from the source.
-/

namespace TerminalSearch

/-! ### Character classes of the regex subset -/

/-- Character-class kinds supported by the model: `\s`, `\d`, `\w`. -/
inductive CKind where
  | space
  | digit
  | word
deriving DecidableEq, Repr

/-- Membership test of one character in a class.  Mirrors the ASCII core of
the regex crate's `\s` / `\d` / `\w` classes (the Unicode extras are outside
the model). -/
def clsChar : CKind → Char → Bool
  | .space, c => c == ' ' || c == '\t' || c == '\n' || c == '\r' || c == '\x0B' || c == '\x0C'
  | .digit, c => decide ('0' ≤ c) && decide (c ≤ '9')
  | .word, c =>
      (decide ('a' ≤ c) && decide (c ≤ 'z')) || (decide ('A' ≤ c) && decide (c ≤ 'Z')) ||
      (decide ('0' ≤ c) && decide (c ≤ '9')) || c == '_'

/-- Characters escaped by `regex::escape` (regex-syntax `is_meta_character`). -/
def metaChars : List Char :=
  ['\\', '.', '+', '*', '?', '(', ')', '|', '[', ']', '{', '}', '^', '$', '#', '&', '-', '~']

/-- Structural metacharacters that the model's parser rejects when unescaped. -/
def structuralChars : List Char :=
  ['(', ')', '|', '[', ']', '{', '}', '^', '$']

/-- `regex::escape`: prepend a backslash to every metacharacter. -/
def escapeRe (s : List Char) : List Char :=
  s.flatMap (fun c => if c ∈ metaChars then ['\\', c] else [c])

/-! ### Regex abstract syntax -/

/-- Abstract syntax of the regex subset used by the model. -/
inductive Re where
  | eps
  | lit (c : Char)
  | cls (k : CKind)
  | any
  | cat (a b : Re)
  | star (a : Re)
  | opt (a : Re)
deriving DecidableEq, Repr

/-- Escape class of a backslash-escaped letter (`\s`, `\d`, `\w`). -/
def classOf (c : Char) : Option CKind :=
  if c = 's' then some .space
  else if c = 'd' then some .digit
  else if c = 'w' then some .word
  else none

/-- Commit the pending atom (if any) onto the reversed factor list. -/
def commit : Option Re → List Re → List Re
  | none, acc => acc
  | some a, acc => a :: acc

/-- Right-nested concatenation of a factor list. -/
def mkSeq : List Re → Re
  | [] => .eps
  | r :: rs => .cat r (mkSeq rs)

/-- Parser loop for `Regex::new` over the model's regex subset.
`last` is the most recent atom (the target of a following quantifier) and
`acc` holds the committed factors in reverse order.  Quantifiers with no
preceding atom, unknown escapes, a trailing backslash, and unescaped
structural metacharacters are compilation errors, as in the regex crate. -/
def pLoop : List Char → Option Re → List Re → Option Re
  | [], last, acc => some (mkSeq ((commit last acc).reverse))
  | c :: rest, last, acc =>
    if c = '*' then
      match last with
      | some a => pLoop rest none (.star a :: acc)
      | none => none
    else if c = '+' then
      match last with
      | some a => pLoop rest none (.cat a (.star a) :: acc)
      | none => none
    else if c = '?' then
      match last with
      | some a => pLoop rest none (.opt a :: acc)
      | none => none
    else if c = '\\' then
      match rest with
      | [] => none
      | d :: rest2 =>
        if d ∈ metaChars then pLoop rest2 (some (.lit d)) (commit last acc)
        else
          match classOf d with
          | some k => pLoop rest2 (some (.cls k)) (commit last acc)
          | none => none
    else if c = '.' then pLoop rest (some .any) (commit last acc)
    else if c ∈ structuralChars then none
    else pLoop rest (some (.lit c)) (commit last acc)

/-- `Regex::new` of the model: compile a pattern string, `none` on error. -/
def compile (s : List Char) : Option Re :=
  pLoop s none []

/-- The regex matching exactly the literal string `p`
(the compiled form of `escapeRe p`). -/
def litRe (p : List Char) : Re :=
  mkSeq (p.map .lit)

/-! ### Matching -/

/-- One layer of the backtracking matcher: `mtchA step re s` returns the
possible suffixes left after matching `re` at the start of `s`, in
backtracking priority order (leftmost-first semantics of the regex crate:
greedy quantifiers first).  The continuation of a star iteration goes
through `step`; a star iteration must consume input, matching the engines'
treatment of empty-width repetitions. -/
def mtchA (step : Re → List Char → List (List Char)) : Re → List Char → List (List Char)
  | .eps, s => [s]
  | .lit c, s =>
    match s with
    | [] => []
    | x :: r => if x == c then [r] else []
  | .cls k, s =>
    match s with
    | [] => []
    | x :: r => if clsChar k x then [r] else []
  | .any, s =>
    match s with
    | [] => []
    | _ :: r => [r]
  | .cat a b, s => (mtchA step a s).flatMap (fun t => mtchA step b t)
  | .opt a, s => mtchA step a s ++ [s]
  | .star a, s =>
      ((mtchA step a s).filter (fun t => decide (t.length < s.length))).flatMap
        (fun t => step (.star a) t) ++ [s]

/-- Backtracking matcher with fuel bounding star unrolling (one unit per
star iteration; iterations consume input, so haystack length plus one is
always enough). -/
def mtch : Nat → Re → List Char → List (List Char)
  | 0 => mtchA (fun _ s => [s])
  | f + 1 => mtchA (mtch f)

/-- Leftmost-first match of `re` at the start of `s`: number of characters
consumed by the priority-first match, or `none`. -/
def matchHere (re : Re) (s : List Char) : Option Nat :=
  ((mtch (s.length + 1) re s).head?).map (fun t => s.length - t.length)

/-! ### Replacement-string expansion -/

/-- Word characters of capture-group names in replacement strings. -/
def isWordC (c : Char) : Bool := clsChar .word c

/-- Decimal digit test. -/
def isDigitC (c : Char) : Bool := clsChar .digit c

/-- Numeric value of a digit string. -/
def digitsVal (l : List Char) : Nat :=
  l.foldl (fun n c => n * 10 + (c.toNat - '0'.toNat)) 0

/-- Capture lookup of `Captures::expand`: an all-digit name is a group
index (group 0 is the whole match); any other name, or a missing group,
expands to the empty string (the model's regexes have no named or numbered
capture groups beyond group 0). -/
def capLookup (caps : List (List Char)) (name : List Char) : List Char :=
  if name.all isDigitC then caps.getD (digitsVal name) []
  else []

/-- Fueled replacement-string expansion (`$$`, `$name`, `${name}`; a `$`
not starting a valid reference is literal).  Mirrors the regex crate's
`expand_str`. -/
def expandF (caps : List (List Char)) : Nat → List Char → List Char
  | 0, l => l
  | _ + 1, [] => []
  | f + 1, c :: rest =>
    if c = '$' then
      match rest with
      | [] => ['$']
      | d :: rest2 =>
        if d = '$' then '$' :: expandF caps f rest2
        else if d = '{' then
          let name := rest2.takeWhile isWordC
          if (rest2.drop name.length).head? == some '}' && !name.isEmpty then
            capLookup caps name ++ expandF caps f (rest2.drop (name.length + 1))
          else '$' :: expandF caps f rest
        else
          let name := rest.takeWhile isWordC
          if name.isEmpty then '$' :: expandF caps f rest
          else capLookup caps name ++ expandF caps f (rest.drop name.length)
    else c :: expandF caps f rest

/-- Replacement-string expansion with sufficient fuel. -/
def expand (caps : List (List Char)) (l : List Char) : List Char :=
  expandF caps l.length l

/-! ### replace_all -/

/-- `Regex::replace_all`, fueled: scan the haystack left to right; at each
position take the leftmost-first match, splice in the expanded replacement,
and continue after it.  An empty match is inserted and the scan advances
one character, except that an empty match at the exact end position of the
previous match is suppressed (the `last_match` check of the crate's match
iterator); `sk` is true exactly in that suppression window.  One unit of
fuel is spent per position, so haystack length plus one is always enough. -/
def rAllF (re : Re) (rep : List Char) : Nat → List Char → Bool → List Char
  | 0, s, _ => s
  | _ + 1, [], sk =>
    match matchHere re [] with
    | some _ => if sk then [] else expand [[]] rep
    | none => []
  | f + 1, c :: s', sk =>
    match matchHere re (c :: s') with
    | none => c :: rAllF re rep f s' false
    | some n =>
      if n = 0 then
        if sk then c :: rAllF re rep f s' false
        else expand [[]] rep ++ c :: rAllF re rep f s' false
      else expand [(c :: s').take n] rep ++ rAllF re rep f (s'.drop (n - 1)) true

/-- `Regex::replace_all` with sufficient fuel. -/
def rAll (re : Re) (rep s : List Char) (sk : Bool) : List Char :=
  rAllF re rep (s.length + 1) s sk

/-! ### Engine -/

/-- The `Engine` struct of src/main.rs (the `Uuid` is opaque, modelled as a
natural number). -/
structure Engine where
  uuid : Nat
  name : List Char
  url_pattern : List Char
  pattern : List Char
  regex : List Char
  replacement : List Char
deriving DecidableEq, Repr

/-- The error of `Engine::url` (an `io::Error` of kind `Other` wrapping the
regex compilation error). -/
inductive UrlError where
  | patternError
deriving DecidableEq, Repr

/-- `Engine::url`: compile `regex`, replace all its matches in `term` by
`replacement` (the treated string), then compile the escaped `pattern` and
replace all its matches in `url_pattern` by the treated string (which is
itself used as a replacement string, hence `$`-expanded). -/
def Engine.url (e : Engine) (term : List Char) : Except UrlError (List Char) :=
  match compile e.regex with
  | none => .error .patternError
  | some re =>
    let treated := rAll re e.replacement term false
    match compile (escapeRe e.pattern) with
    | none => .error .patternError
    | some pre => .ok (rAll pre treated e.url_pattern false)

/-! ### Specification-side replacement functions -/

/-- Boolean prefix test. -/
def isPfx : List Char → List Char → Bool
  | [], _ => true
  | _ :: _, [] => false
  | a :: p, b :: s => a == b && isPfx p s

/-- Boolean substring-occurrence test. -/
def isSub (p : List Char) : List Char → Bool
  | [] => isPfx p []
  | c :: s' => isPfx p (c :: s') || isSub p s'

/-- Literal-occurrence scan with replacement-string insertion, fueled: the
matching side of step 2 spelled out over plain string prefixes (no
regexes), with the same expansion and empty-match bookkeeping as `rAllF`.
Used to state that `pattern` is matched literally inside `url_pattern`. -/
def litRepF (p rep : List Char) : Nat → List Char → Bool → List Char
  | 0, s, _ => s
  | _ + 1, [], sk =>
    if p.isEmpty then (if sk then [] else expand [[]] rep) else []
  | f + 1, c :: s', sk =>
    if p.isEmpty then
      if sk then c :: litRepF p rep f s' false
      else expand [[]] rep ++ c :: litRepF p rep f s' false
    else if isPfx p (c :: s') then
      expand [p] rep ++ litRepF p rep f (s'.drop (p.length - 1)) true
    else c :: litRepF p rep f s' false

/-- The literal-occurrence scan with sufficient fuel. -/
def litRep (p rep s : List Char) (sk : Bool) : List Char :=
  litRepF p rep (s.length + 1) s sk

/-- Modelled from the spec, fueled: "replace all literal occurrences of
`pattern` inside `url_pattern` with the treated string" — fully literal
substitution, the inserted text taken verbatim. -/
def litSubstF (p t : List Char) : Nat → List Char → List Char
  | 0, s => s
  | _ + 1, [] => if p.isEmpty then t else []
  | f + 1, c :: s' =>
    if p.isEmpty then t ++ c :: litSubstF p t f s'
    else if isPfx p (c :: s') then t ++ litSubstF p t f (s'.drop (p.length - 1))
    else c :: litSubstF p t f s'

/-- Fully literal substitution with sufficient fuel. -/
def litSubst (p t s : List Char) : List Char :=
  litSubstF p t (s.length + 1) s

/-! ### Configuration (catalog) -/

/-- Typed failures of the catalog operations, named after the spec's
taxonomy.  `emptyCatalog` is the `InvalidData` "null vector" error raised
when `engines` is `None`; `notFound` is the `InvalidData` error of
`set_default` for an unknown name. -/
inductive CatalogError where
  | emptyCatalog
  | notFound
deriving DecidableEq, Repr

/-- The `Configuration` struct of src/main.rs.  `file_path` carries the
bound path and is excluded from serialization (`skip_serializing`,
`skip_deserializing`). -/
structure Configuration where
  file_path : List Char
  default_engine : Option (List Char)
  engines : Option (List Engine)
deriving DecidableEq, Repr

/-- `Configuration::new`. -/
def Configuration.new (p : List Char) (d : Option (List Char))
    (e : Option (List Engine)) : Configuration :=
  ⟨p, d, e⟩

/-- `Configuration::update_path`. -/
def Configuration.update_path (c : Configuration) (p : List Char) : Configuration :=
  { c with file_path := p }

/-- `Configuration::push`: append, creating the vector when absent. -/
def Configuration.push (c : Configuration) (e : Engine) : Configuration :=
  { c with engines :=
      match c.engines with
      | none => some [e]
      | some v => some (v ++ [e]) }

/-- `Configuration::names`. -/
def Configuration.names (c : Configuration) : List (List Char) :=
  match c.engines with
  | some content => content.map (·.name)
  | none => []

/-- `Configuration::remove_where_name`: retain the engines whose name
differs; error only when `engines` is `None`.  The mutated configuration is
returned alongside the `Result` (`&mut self` in the source). -/
def Configuration.remove_where_name (c : Configuration) (name : List Char) :
    Except CatalogError Unit × Configuration :=
  match c.engines with
  | some content =>
      (.ok (), { c with engines := some (content.filter (fun e => e.name != name)) })
  | none => (.error .emptyCatalog, c)

/-- Outcome of `Configuration::remove_at`: the source consumes `self` and
returns `Result<(), io::Error>`, so beyond the result nothing is observable;
`panicked` records that `Vec::remove` panicked. -/
inductive RemoveOutcome where
  | ok
  | emptyCatalogError
  | panicked
deriving DecidableEq, Repr

/-- `Vec::remove`, which panics (here: `none`) when `i` is out of bounds. -/
def vecRemove (v : List Engine) (i : Nat) : Option (List Engine) :=
  if i < v.length then some (v.eraseIdx i) else none

/-- `Configuration::remove_at`: on `Some` engines it calls `Vec::remove`
directly (panicking out of bounds); on `None` it returns the "null vector"
`InvalidData` error. -/
def Configuration.remove_at (c : Configuration) (i : Nat) : RemoveOutcome :=
  match c.engines with
  | some content =>
    match vecRemove content i with
    | some _ => .ok
    | none => .panicked
  | none => .emptyCatalogError

/-- `Configuration::set_default`: only a currently listed name is accepted;
otherwise the error is returned and nothing is mutated. -/
def Configuration.set_default (c : Configuration) (name : List Char) :
    Except CatalogError Unit × Configuration :=
  if c.names.contains name then (.ok (), { c with default_engine := some name })
  else (.error .notFound, c)

/-! ### Store -/

/-- Modelled from the spec: the serialized shape of a `Configuration`
(serde_yaml is outside src/); per §6 the file is a structured document with
the two top-level fields, `file_path` being skipped. -/
structure SerializedConfig where
  default_engine : Option (List Char)
  engines : Option (List Engine)
deriving DecidableEq, Repr

/-- Modelled from the spec: the state of the configuration file, at the
document level — zero-length, size not determinable, a well-formed document,
or undeserializable content. -/
inductive FileContent where
  | empty
  | unknownSize
  | yaml (doc : SerializedConfig)
  | malformed
deriving DecidableEq, Repr

/-- Modelled from the spec: the file system, mapping a path to the content
of the file there (`none` = the path does not exist). -/
abbrev FS := List Char → Option FileContent

/-- Write (create or fully overwrite) one file. -/
def fsWrite (fs : FS) (path : List Char) (v : FileContent) : FS :=
  fun q => if q = path then some v else fs q

/-- The error of `Configuration::from` on undeserializable content
(`io::ErrorKind::InvalidData`). -/
inductive LoadError where
  | malformedConfig
deriving DecidableEq, Repr

/-- `Configuration::from`: nonexistent path — create an empty file, fresh
empty catalog; existing but zero-length file (or size not determinable) —
fresh empty catalog, file untouched; non-empty file — deserialize, rebind
the path via `update_path`, failing with `malformedConfig` when
deserialization fails. -/
def Configuration.fromFile (fs : FS) (path : List Char) :
    Except LoadError (Configuration × FS) :=
  match fs path with
  | none => .ok (Configuration.new path none none, fsWrite fs path .empty)
  | some .empty => .ok (Configuration.new path none none, fs)
  | some .unknownSize => .ok (Configuration.new path none none, fs)
  | some (.yaml doc) =>
      .ok ((Configuration.new [] doc.default_engine doc.engines).update_path path, fs)
  | some .malformed => .error .malformedConfig

/-- `Configuration::save`: serialize the whole catalog (without the path)
and write it to the bound path, truncating prior content. -/
def Configuration.save (c : Configuration) (fs : FS) : FS :=
  fsWrite fs c.file_path (.yaml ⟨c.default_engine, c.engines⟩)

/-! ### Concrete instances used by examples and witnesses -/

/-- The spec's worked example engine. -/
def exEngine : Engine :=
  ⟨0, "example".data, "https://example.com/search?q={q}".data, "{q}".data, "\\s+".data, "+".data⟩

/-- An engine whose treated string can carry dollar sequences. -/
def dollarEngine : Engine :=
  ⟨1, "d".data, "a{q}b".data, "{q}".data, "x".data, "y".data⟩

/-- An engine whose regex does not compile. -/
def badEngine : Engine :=
  ⟨2, "b".data, "u".data, "p".data, "(".data, "r".data⟩

/-- An engine whose pattern does not occur in its url pattern. -/
def noSlotEngine : Engine :=
  ⟨3, "n".data, "https://example.com/".data, "{q}".data, "x".data, "y".data⟩

/-- A catalog whose engine vector is present but empty. -/
def cfgEmptyVec : Configuration := Configuration.new "cfg".data none (some [])

/-- A catalog holding the example engine. -/
def namedCfg : Configuration := Configuration.new "cfg".data none (some [exEngine])

/-- The empty file system. -/
def fs0 : FS := fun _ => none

/-! ### Lemmas: the escaped pattern compiles to the literal regex -/

/-- Every structural metacharacter is a metacharacter. -/
theorem mem_structural_meta {c : Char} (hc : c ∈ structuralChars) : c ∈ metaChars := by
  simp [structuralChars] at hc
  rcases hc with h | h | h | h | h | h | h | h | h <;> subst h <;> decide

/-- Running the parser on an escaped string always succeeds and appends the
string's characters as literal factors. -/
theorem pLoop_escape :
    ∀ (p : List Char) (last : Option Re) (acc : List Re),
      pLoop (escapeRe p) last acc =
        some (mkSeq ((commit last acc).reverse ++ p.map Re.lit)) := by
  intro p
  induction p with
  | nil =>
    intro last acc
    simp [escapeRe, pLoop]
  | cons c p ih =>
    intro last acc
    by_cases h : c ∈ metaChars
    · have he : escapeRe (c :: p) = '\\' :: c :: escapeRe p := by
        simp [escapeRe, h]
      have step : pLoop ('\\' :: c :: escapeRe p) last acc =
          if c ∈ metaChars then pLoop (escapeRe p) (some (Re.lit c)) (commit last acc)
          else
            match classOf c with
            | some k => pLoop (escapeRe p) (some (Re.cls k)) (commit last acc)
            | none => none := rfl
      rw [he, step, if_pos h]
      rw [ih (some (Re.lit c)) (commit last acc)]
      simp [commit, List.append_assoc]
    · have he : escapeRe (c :: p) = c :: escapeRe p := by
        simp [escapeRe, h]
      have h1 : ¬ c = '*' := fun e => h (by rw [e]; decide)
      have h2 : ¬ c = '+' := fun e => h (by rw [e]; decide)
      have h3 : ¬ c = '?' := fun e => h (by rw [e]; decide)
      have h4 : ¬ c = '\\' := fun e => h (by rw [e]; decide)
      have h5 : ¬ c = '.' := fun e => h (by rw [e]; decide)
      have h6 : ¬ c ∈ structuralChars := fun hc => h (mem_structural_meta hc)
      rw [he]
      rw [pLoop.eq_def]
      simp only []
      rw [if_neg h1, if_neg h2, if_neg h3, if_neg h4, if_neg h5, if_neg h6]
      rw [ih (some (Re.lit c)) (commit last acc)]
      simp [commit, List.append_assoc]

/-- `regex::escape` output always compiles, to the literal regex. -/
theorem compile_escape (p : List Char) : compile (escapeRe p) = some (litRe p) := by
  rw [compile, pLoop_escape p none []]
  simp [commit, litRe]

/-! ### Lemmas: matching a literal regex is a prefix test -/

/-- A prefix is no longer than the string. -/
theorem isPfx_length : ∀ {p s : List Char}, isPfx p s = true → p.length ≤ s.length := by
  intro p
  induction p with
  | nil => intro s _; simp
  | cons a p ih =>
    intro s h
    cases s with
    | nil => simp [isPfx] at h
    | cons b s =>
      simp only [isPfx, Bool.and_eq_true] at h
      simpa using ih h.2

/-- Taking a prefix's length recovers the prefix. -/
theorem isPfx_take : ∀ {p s : List Char}, isPfx p s = true → s.take p.length = p := by
  intro p
  induction p with
  | nil => intro s _; simp
  | cons a p ih =>
    intro s h
    cases s with
    | nil => simp [isPfx] at h
    | cons b s =>
      simp only [isPfx, Bool.and_eq_true, beq_iff_eq] at h
      simp [List.take_succ_cons, h.1, ih h.2]

/-- On the empty string the prefix test is emptiness of the pattern. -/
theorem isPfx_nil (p : List Char) : isPfx p [] = p.isEmpty := by
  cases p <;> simp [isPfx]

/-- One matcher layer on the literal regex of `p` is exactly the prefix
test for `p`, whatever the star continuation. -/
theorem mtchA_lit (step : Re → List Char → List (List Char)) :
    ∀ (p : List Char) (s : List Char),
      mtchA step (litRe p) s = if isPfx p s then [s.drop p.length] else [] := by
  intro p
  induction p with
  | nil =>
    intro s
    simp [litRe, mkSeq, mtchA, isPfx]
  | cons c p ih =>
    intro s
    have hl : litRe (c :: p) = .cat (.lit c) (litRe p) := by simp [litRe, mkSeq]
    rw [hl]
    cases s with
    | nil =>
      simp [mtchA, isPfx]
    | cons x r =>
      simp only [mtchA]
      by_cases hx : x == c
      · have hcx : c == x := by
          rw [beq_iff_eq] at hx ⊢
          exact hx.symm
        rw [if_pos hx]
        simp only [List.flatMap_cons, List.flatMap_nil, List.append_nil, ih r]
        simp [isPfx, hcx, List.drop_succ_cons]
      · rw [if_neg hx]
        have hcx : ¬ (c == x) = true := by
          rw [beq_iff_eq] at hx ⊢
          exact fun e => hx e.symm
        simp [isPfx, hcx]

/-- Matching the literal regex of `p` is exactly the prefix test for `p`. -/
theorem mtch_lit (p : List Char) (f : Nat) (s : List Char) :
    mtch f (litRe p) s = if isPfx p s then [s.drop p.length] else [] := by
  cases f with
  | zero => exact mtchA_lit _ p s
  | succ f => exact mtchA_lit _ p s

/-- `matchHere` on the literal regex of `p`: a match consumes exactly `p`. -/
theorem matchHere_lit (p s : List Char) :
    matchHere (litRe p) s = if isPfx p s then some p.length else none := by
  rw [matchHere, mtch_lit]
  by_cases h : isPfx p s
  · rw [if_pos h, if_pos h]
    simp [Nat.sub_sub_self (isPfx_length h)]
  · rw [if_neg h, if_neg h]
    rfl

/-! ### Lemmas: expansion of a dollar-free replacement is the identity -/

/-- With enough fuel, expanding a replacement without a dollar sign copies
it verbatim. -/
theorem expandF_noDollar (caps : List (List Char)) :
    ∀ (l : List Char) (f : Nat), '$' ∉ l → l.length ≤ f → expandF caps f l = l := by
  intro l
  induction l with
  | nil =>
    intro f _ _
    cases f <;> rfl
  | cons c rest ih =>
    intro f hd hf
    cases f with
    | zero => simp at hf
    | succ f =>
      have hc : ¬ c = '$' := fun e => hd (e ▸ List.mem_cons_self c rest)
      have hd' : '$' ∉ rest := fun hm => hd (List.mem_cons_of_mem c hm)
      have hf' : rest.length ≤ f := by simp at hf; omega
      rw [expandF.eq_def]
      simp only []
      rw [if_neg hc, ih f hd' hf']

/-- Expansion of a dollar-free replacement is the identity. -/
theorem expand_noDollar (caps : List (List Char)) (l : List Char) (hd : '$' ∉ l) :
    expand caps l = l :=
  expandF_noDollar caps l l.length hd (Nat.le_refl _)

/-! ### Lemmas: replace_all of the literal regex is the literal scan -/

/-- A nonempty literal pattern never produces empty matches, so the
suppression flag is irrelevant. -/
theorem litRepF_sk (p rep : List Char) (hp : p ≠ []) (f : Nat) (s : List Char) (sk sk' : Bool) :
    litRepF p rep f s sk = litRepF p rep f s sk' := by
  have hpe : p.isEmpty = false := by
    cases p with
    | nil => exact absurd rfl hp
    | cons a q => rfl
  cases f with
  | zero => rfl
  | succ f =>
    cases s with
    | nil => simp [litRepF, hpe]
    | cons c s' => simp [litRepF, hpe]

/-- `replace_all` of the literal regex of `p` coincides with the literal
occurrence scan, fuel for fuel. -/
theorem rAllF_lit (p rep : List Char) :
    ∀ (f : Nat) (s : List Char) (sk : Bool), s.length < f →
      rAllF (litRe p) rep f s sk = litRepF p rep f s sk := by
  intro f
  induction f with
  | zero =>
    intro s sk hs
    exact absurd hs (Nat.not_lt_zero _)
  | succ f ih =>
    intro s sk hs
    cases s with
    | nil =>
      have h := matchHere_lit p []
      rw [isPfx_nil] at h
      cases p with
      | nil => simp at h; simp [rAllF, litRepF, h]
      | cons a q => simp at h; simp [rAllF, litRepF, h]
    | cons c s' =>
      have hs' : s'.length < f := by simp at hs; omega
      cases p with
      | nil =>
        have h := matchHere_lit [] (c :: s')
        simp [isPfx] at h
        simp [rAllF, litRepF, h, ih s' false hs']
      | cons a q =>
        have h := matchHere_lit (a :: q) (c :: s')
        by_cases hpf : isPfx (a :: q) (c :: s')
        · rw [if_pos hpf] at h
          have hsd : (s'.drop q.length).length < f := by
            simp [List.length_drop]; omega
          have hrec := ih (s'.drop q.length) true hsd
          obtain ⟨hca, htq⟩ : c = a ∧ s'.take q.length = q := by simpa using isPfx_take hpf
          subst hca
          simp [rAllF, litRepF, h, hpf, htq, hrec, List.take_succ_cons]
        · rw [if_neg hpf] at h
          simp [rAllF, litRepF, h, hpf, ih s' false hs']

/-- `replace_all` of the literal regex of `p` is the literal occurrence
scan. -/
theorem rAll_lit (p rep s : List Char) (sk : Bool) :
    rAll (litRe p) rep s sk = litRep p rep s sk :=
  rAllF_lit p rep (s.length + 1) s sk (Nat.lt_succ_self _)

/-- When the treated string has no dollar sign, the literal scan inserts it
verbatim: it equals the spec's fully literal substitution, fuel for fuel. -/
theorem litRepF_litSubst (p t : List Char) (hd : '$' ∉ t) :
    ∀ (f : Nat) (s : List Char), litRepF p t f s false = litSubstF p t f s := by
  have he : ∀ caps, expand caps t = t := fun caps => expand_noDollar caps t hd
  intro f
  induction f with
  | zero => intro s; rfl
  | succ f ih =>
    intro s
    cases s with
    | nil =>
      cases p with
      | nil => simp [litRepF, litSubstF, he]
      | cons a q => simp [litRepF, litSubstF]
    | cons c s' =>
      cases p with
      | nil => simp [litRepF, litSubstF, he, ih s']
      | cons a q =>
        by_cases hpf : isPfx (a :: q) (c :: s')
        · have hsk := litRepF_sk (a :: q) t (by simp) f (s'.drop ((a :: q).length - 1)) true false
          simp [List.length_cons] at hsk
          simp [litRepF, litSubstF, hpf, he, hsk, ih (s'.drop q.length)]
        · simp [litRepF, litSubstF, hpf, ih s']

/-- When the treated string has no dollar sign, the literal scan is the
spec's fully literal substitution. -/
theorem litRep_litSubst (p t s : List Char) (hd : '$' ∉ t) :
    litRep p t s false = litSubst p t s :=
  litRepF_litSubst p t hd (s.length + 1) s

/-- When the pattern does not occur in the haystack, the literal scan is the
identity, for every fuel. -/
theorem litRepF_not_sub (p rep : List Char) :
    ∀ (f : Nat) (s : List Char) (sk : Bool), isSub p s = false → litRepF p rep f s sk = s := by
  intro f
  induction f with
  | zero => intro s sk _; rfl
  | succ f ih =>
    intro s sk h
    cases s with
    | nil =>
      rw [isSub, isPfx_nil] at h
      simp [litRepF, h]
    | cons c s' =>
      rw [isSub] at h
      simp only [Bool.or_eq_false_iff] at h
      have hpe : p.isEmpty = false := by
        cases p with
        | nil => simp [isPfx] at h
        | cons a q => rfl
      simp [litRepF, hpe, h.1, ih s' false h.2]

/-- When the pattern does not occur in the haystack, the literal scan is the
identity. -/
theorem litRep_not_sub (p rep s : List Char) (sk : Bool) (h : isSub p s = false) :
    litRep p rep s sk = s :=
  litRepF_not_sub p rep (s.length + 1) s sk h

/-- Characterization of `Engine::url` for a compiling regex: step 2 is the
literal occurrence scan of `pattern` over `url_pattern`, inserting the
expanded treated string. -/
theorem url_spec (e : Engine) (term : List Char) (re : Re) (h : compile e.regex = some re) :
    Engine.url e term =
      .ok (litRep e.pattern (rAll re e.replacement term false) e.url_pattern false) := by
  rw [Engine.url.eq_def, h, compile_escape]
  simp only []
  rw [rAll_lit e.pattern _ e.url_pattern false]

/-! ### Claim theorems -/

/-- C1 (amended): for every engine whose regex compiles and every term,
`Engine::url` returns `Ok` of the url pattern with every literal occurrence
of `pattern` replaced by the treated string — provided the treated string
contains no dollar sign (otherwise it is `$`-expanded rather than inserted
verbatim, see the counterexample); and on the spec's example the result is
`https://example.com/search?q=hello+world`. -/
theorem url_literal_substitution_amended :
    (∀ (e : Engine) (term : List Char) (re : Re),
      compile e.regex = some re →
      '$' ∉ rAll re e.replacement term false →
      Engine.url e term =
        .ok (litSubst e.pattern (rAll re e.replacement term false) e.url_pattern)) ∧
    Engine.url exEngine "hello world".data =
      .ok "https://example.com/search?q=hello+world".data := by
  constructor
  · intro e term re h hd
    rw [url_spec e term re h, litRep_litSubst e.pattern _ e.url_pattern hd]
  · rfl

/-- Witness for C1: a concrete engine and term with a dollar-free treated
string, where resolution is exactly literal substitution. -/
theorem url_literal_substitution_amended_witness :
    Engine.url exEngine "hi there".data =
      .ok (litSubst exEngine.pattern
        (rAll (.cat (.cat (.cls .space) (.star (.cls .space))) .eps)
          exEngine.replacement "hi there".data false)
        exEngine.url_pattern) :=
  url_literal_substitution_amended.1 exEngine "hi there".data
    (.cat (.cat (.cls .space) (.star (.cls .space))) .eps) rfl (by decide)

/-- Counterexample for C1 as stated: with treated string `$0`, step 2
expands the dollar reference to the matched pattern, so the produced URL
differs from literal substitution of the treated string. -/
theorem url_literal_substitution_counterexample :
    compile dollarEngine.regex = some (.cat (.lit 'x') .eps) ∧
    rAll (.cat (.lit 'x') .eps) dollarEngine.replacement "$0".data false = "$0".data ∧
    Engine.url dollarEngine "$0".data = .ok "a{q}b".data ∧
    litSubst dollarEngine.pattern "$0".data dollarEngine.url_pattern = "a$0b".data ∧
    "a{q}b".data ≠ "a$0b".data :=
  ⟨rfl, rfl, rfl, rfl, by decide⟩

/-- C2 (code bug): `remove_at` panics inside `Vec::remove` whenever the
index is not below the engine count (here: an empty vector at index 0),
instead of returning the typed `IndexOutOfBounds` failure the spec
requires; only an absent (`None`) vector produces a typed error, and that
error is the "null vector" one. -/
theorem remove_at_out_of_bounds_panics :
    Configuration.remove_at cfgEmptyVec 0 = .panicked ∧
    Configuration.remove_at (Configuration.new "cfg".data none none) 0 = .emptyCatalogError :=
  ⟨rfl, rfl⟩

/-- Counterexample for C3 as stated: on a catalog whose engine vector is
present but empty, `remove_where_name` succeeds instead of failing with
`EmptyCatalog`. -/
theorem remove_where_name_empty_vec_counterexample :
    Configuration.remove_where_name cfgEmptyVec "a".data = (.ok (), cfgEmptyVec) :=
  rfl

/-- C3 (amended): `remove_where_name` fails with `EmptyCatalog` exactly when
the engines sequence is absent (`None`); when it is present — even as an
empty vector — it succeeds, removing every engine with the given name, and
is a no-op on the names when none matches. -/
theorem remove_where_name_amended :
    ∀ (c : Configuration) (name : List Char),
      (c.engines = none → c.remove_where_name name = (.error .emptyCatalog, c)) ∧
      (∀ v, c.engines = some v →
        c.remove_where_name name =
          (.ok (), { c with engines := some (v.filter (fun e => e.name != name)) })) ∧
      (∀ v, c.engines = some v → (∀ e ∈ v, e.name ≠ name) →
        ((c.remove_where_name name).2).names = c.names) := by
  intro c name
  refine ⟨?_, ?_, ?_⟩
  · intro h
    simp [Configuration.remove_where_name, h]
  · intro v h
    simp [Configuration.remove_where_name, h]
  · intro v h hall
    have hfil : v.filter (fun e => e.name != name) = v := by
      apply List.filter_eq_self.mpr
      intro a ha
      simpa using hall a ha
    simp [Configuration.remove_where_name, h, hfil, Configuration.names]

/-- Witness for C3: removing an absent name from a one-engine catalog
succeeds and leaves the engine list as the filter leaves it. -/
theorem remove_where_name_amended_witness :
    namedCfg.remove_where_name "zzz".data =
      (.ok (), { namedCfg with
        engines := some ([exEngine].filter (fun e => e.name != "zzz".data)) }) :=
  (remove_where_name_amended namedCfg "zzz".data).2.1 [exEngine] rfl

/-- C4: saving a catalog to its bound path (a full overwrite) and loading
from that path reproduces an equal catalog — same engines in the same
order, same default, rebound to the same path. -/
theorem save_load_round_trip :
    ∀ (c : Configuration) (fs : FS),
      Configuration.fromFile (c.save fs) c.file_path = .ok (c, c.save fs) := by
  intro c fs
  simp [Configuration.fromFile, Configuration.save, fsWrite, Configuration.new,
    Configuration.update_path]

/-- C5: there exist an engine with a compiling regex and a term for which
the resolved URL differs from literally substituting the treated string for
the pattern: the treated string is applied as a regex replacement string,
so its dollar sequences are expanded. -/
theorem treated_string_dollar_expansion_exists :
    ∃ (e : Engine) (term : List Char) (re : Re),
      compile e.regex = some re ∧
      Engine.url e term ≠
        .ok (litSubst e.pattern (rAll re e.replacement term false) e.url_pattern) := by
  refine ⟨dollarEngine, "$0".data, .cat (.lit 'x') .eps, rfl, ?_⟩
  intro hx
  have h1 : Engine.url dollarEngine "$0".data = Except.ok "a{q}b".data := rfl
  have h2 : litSubst dollarEngine.pattern
      (rAll (.cat (.lit 'x') .eps) dollarEngine.replacement "$0".data false)
      dollarEngine.url_pattern = "a$0b".data := rfl
  rw [h1, h2] at hx
  simp at hx

/-- C6: the three load cases, checked in order — nonexistent path: create an
empty file and return the fresh empty catalog bound to the path; existing
zero-length file (or size not determinable): fresh empty catalog without
rewriting the file; existing non-empty file: deserialize and bind to the
path, failing with `MalformedConfig` exactly when deserialization fails. -/
theorem load_three_cases :
    ∀ (fs : FS) (path : List Char),
      (fs path = none →
        Configuration.fromFile fs path =
          .ok (Configuration.new path none none, fsWrite fs path .empty)) ∧
      (fs path = some .empty →
        Configuration.fromFile fs path = .ok (Configuration.new path none none, fs)) ∧
      (fs path = some .unknownSize →
        Configuration.fromFile fs path = .ok (Configuration.new path none none, fs)) ∧
      (∀ doc, fs path = some (.yaml doc) →
        Configuration.fromFile fs path =
          .ok (Configuration.new path doc.default_engine doc.engines, fs)) ∧
      (fs path = some .malformed →
        Configuration.fromFile fs path = .error .malformedConfig) := by
  intro fs path
  refine ⟨?_, ?_, ?_, ?_, ?_⟩
  · intro h
    simp [Configuration.fromFile, h]
  · intro h
    simp [Configuration.fromFile, h]
  · intro h
    simp [Configuration.fromFile, h]
  · intro doc h
    simp [Configuration.fromFile, h, Configuration.new, Configuration.update_path]
  · intro h
    simp [Configuration.fromFile, h]

/-- Witness for C6: loading from the empty file system creates the file and
returns the fresh empty catalog. -/
theorem load_three_cases_witness :
    Configuration.fromFile fs0 "cfg".data =
      .ok (Configuration.new "cfg".data none none, fsWrite fs0 "cfg".data .empty) :=
  (load_three_cases fs0 "cfg".data).1 rfl

/-- C7: `set_default` succeeds exactly when the name is currently among
`names()`; on failure it returns the not-found error and leaves the whole
catalog — in particular `default_engine` — unchanged. -/
theorem set_default_iff_known_name :
    ∀ (c : Configuration) (name : List Char),
      (c.names.contains name = true →
        c.set_default name = (.ok (), { c with default_engine := some name })) ∧
      (c.names.contains name = false →
        c.set_default name = (.error .notFound, c)) := by
  intro c name
  constructor
  · intro h
    unfold Configuration.set_default
    rw [if_pos h]
  · intro h
    unfold Configuration.set_default
    rw [if_neg (by rw [h]; exact Bool.false_ne_true)]

/-- Witness for C7: setting an unknown default fails without mutation. -/
theorem set_default_iff_known_name_witness :
    namedCfg.set_default "zzz".data = (.error .notFound, namedCfg) :=
  (set_default_iff_known_name namedCfg "zzz".data).2 rfl

/-- C8: resolution fails (with the pattern error) exactly when the engine's
regex does not compile; the escaped pattern of step 2 always compiles, so
that failure branch is unreachable, and with a compiling regex resolution
succeeds for every term (the empty term included). -/
theorem url_error_iff_invalid_regex :
    ∀ (e : Engine) (term : List Char),
      ((∃ u, Engine.url e term = .ok u) ↔ (∃ re, compile e.regex = some re)) ∧
      (compile e.regex = none → Engine.url e term = .error .patternError) ∧
      (∃ re2, compile (escapeRe e.pattern) = some re2) := by
  intro e term
  refine ⟨⟨?_, ?_⟩, ?_, ⟨litRe e.pattern, compile_escape e.pattern⟩⟩
  · rintro ⟨u, hu⟩
    cases h : compile e.regex with
    | none =>
      rw [Engine.url.eq_def, h] at hu
      simp at hu
    | some re => exact ⟨re, rfl⟩
  · rintro ⟨re, h⟩
    exact ⟨_, url_spec e term re h⟩
  · intro h
    rw [Engine.url.eq_def, h]

/-- Witness for C8: an unclosed group does not compile, and resolution of
an engine carrying it fails with the pattern error. -/
theorem url_error_iff_invalid_regex_witness :
    Engine.url badEngine "t".data = .error .patternError :=
  (url_error_iff_invalid_regex badEngine "t".data).2.1 rfl

/-- C9: for every engine with a compiling regex and every term, the
produced URL is the literal-occurrence scan of `pattern` over
`url_pattern`: the pattern is escaped before compilation, so metacharacters
in it, or in the treated term, are never interpreted as regex syntax
against the url pattern. -/
theorem pattern_matched_literally :
    ∀ (e : Engine) (term : List Char) (re : Re),
      compile e.regex = some re →
      Engine.url e term =
        .ok (litRep e.pattern (rAll re e.replacement term false) e.url_pattern false) :=
  fun e term re h => url_spec e term re h

/-- Witness for C9: a term made of regex metacharacters is still handled by
the literal scan. -/
theorem pattern_matched_literally_witness :
    Engine.url exEngine ".*".data =
      .ok (litRep exEngine.pattern
        (rAll (.cat (.cat (.cls .space) (.star (.cls .space))) .eps)
          exEngine.replacement ".*".data false)
        exEngine.url_pattern false) :=
  pattern_matched_literally exEngine ".*".data
    (.cat (.cat (.cls .space) (.star (.cls .space))) .eps) rfl

/-- C10: when the pattern does not occur as a substring of the url pattern,
resolution succeeds and returns the url pattern unchanged, for every term. -/
theorem pattern_absent_url_unchanged :
    ∀ (e : Engine) (term : List Char) (re : Re),
      compile e.regex = some re →
      isSub e.pattern e.url_pattern = false →
      Engine.url e term = .ok e.url_pattern := by
  intro e term re h hsub
  rw [url_spec e term re h, litRep_not_sub e.pattern _ e.url_pattern false hsub]

/-- Witness for C10: an engine whose url pattern has no placeholder
resolves to the url pattern itself. -/
theorem pattern_absent_url_unchanged_witness :
    Engine.url noSlotEngine "hello".data = .ok noSlotEngine.url_pattern :=
  pattern_absent_url_unchanged noSlotEngine "hello".data (.cat (.lit 'x') .eps) rfl rfl

end TerminalSearch
